import Mathlib

/-!
# jumpcloud_go_assignment: the password-hash job store and its shutdown protocol

A shallow embedding of `handlers/handlers.go` and of `gracefullShutdown` in `main.go`.

* `Sha512` and `Base64` model the two Go standard-library calls that `hashPassword` makes
  (`crypto/sha512` and `encoding/base64`), so that the stored digest can be computed.
* `HashResult`, `Store`, `Chan`, `State` are the package-level variables of `handlers.go`.
* `GetHash`, `ProcessHash`, `hashPassword`, `pendingRequestsExist`, `GetStats`, `Shutdown`
  are the functions of `handlers.go`; `gracefullShutdown` is the receiving side in `main.go`.
* `step` / `exec` interleave requests, worker steps and the receives of `gracefullShutdown`
  one atomic step at a time.
-/

namespace Sha512

/-- The 64-bit word size: every word operation is taken modulo `2 ^ 64`. -/
def wordMod : Nat := 2 ^ 64

/-- Rotate the 64-bit word `x` right by `n` bits (`bits.RotateLeft64(x, -n)`). -/
def rotr (x n : Nat) : Nat := ((x >>> n) ||| (x <<< (64 - n))) % wordMod

/-- Bitwise complement of a 64-bit word. -/
def not64 (x : Nat) : Nat := (wordMod - 1) ^^^ x

/-- Round constants of SHA-512 (`_K` in `crypto/sha512`). -/
def K : List Nat :=
  [0x428a2f98d728ae22, 0x7137449123ef65cd, 0xb5c0fbcfec4d3b2f, 0xe9b5dba58189dbbc,
   0x3956c25bf348b538, 0x59f111f1b605d019, 0x923f82a4af194f9b, 0xab1c5ed5da6d8118,
   0xd807aa98a3030242, 0x12835b0145706fbe, 0x243185be4ee4b28c, 0x550c7dc3d5ffb4e2,
   0x72be5d74f27b896f, 0x80deb1fe3b1696b1, 0x9bdc06a725c71235, 0xc19bf174cf692694,
   0xe49b69c19ef14ad2, 0xefbe4786384f25e3, 0x0fc19dc68b8cd5b5, 0x240ca1cc77ac9c65,
   0x2de92c6f592b0275, 0x4a7484aa6ea6e483, 0x5cb0a9dcbd41fbd4, 0x76f988da831153b5,
   0x983e5152ee66dfab, 0xa831c66d2db43210, 0xb00327c898fb213f, 0xbf597fc7beef0ee4,
   0xc6e00bf33da88fc2, 0xd5a79147930aa725, 0x06ca6351e003826f, 0x142929670a0e6e70,
   0x27b70a8546d22ffc, 0x2e1b21385c26c926, 0x4d2c6dfc5ac42aed, 0x53380d139d95b3df,
   0x650a73548baf63de, 0x766a0abb3c77b2a8, 0x81c2c92e47edaee6, 0x92722c851482353b,
   0xa2bfe8a14cf10364, 0xa81a664bbc423001, 0xc24b8b70d0f89791, 0xc76c51a30654be30,
   0xd192e819d6ef5218, 0xd69906245565a910, 0xf40e35855771202a, 0x106aa07032bbd1b8,
   0x19a4c116b8d2d0c8, 0x1e376c085141ab53, 0x2748774cdf8eeb99, 0x34b0bcb5e19b48a8,
   0x391c0cb3c5c95a63, 0x4ed8aa4ae3418acb, 0x5b9cca4f7763e373, 0x682e6ff3d6b2b8a3,
   0x748f82ee5defb2fc, 0x78a5636f43172f60, 0x84c87814a1f0ab72, 0x8cc702081a6439ec,
   0x90befffa23631e28, 0xa4506cebde82bde9, 0xbef9a3f7b2c67915, 0xc67178f2e372532b,
   0xca273eceea26619c, 0xd186b8c721c0c207, 0xeada7dd6cde0eb1e, 0xf57d4f7fee6ed178,
   0x06f067aa72176fba, 0x0a637dc5a2c898a6, 0x113f9804bef90dae, 0x1b710b35131c471b,
   0x28db77f523047d84, 0x32caab7b40c72493, 0x3c9ebe0a15c9bebc, 0x431d67c49c100d4c,
   0x4cc5d4becb3e42b6, 0x597f299cfc657e2a, 0x5fcb6fab3ad6faec, 0x6c44198c4a475817]

/-- The eight chaining words of the hash state. -/
structure Words where
  a : Nat
  b : Nat
  c : Nat
  d : Nat
  e : Nat
  f : Nat
  g : Nat
  h : Nat
deriving DecidableEq, Repr

/-- Initial hash value of SHA-512. -/
def iv : Words :=
  { a := 0x6a09e667f3bcc908, b := 0xbb67ae8584caa73b, c := 0x3c6ef372fe94f82b,
    d := 0xa54ff53a5f1d36f1, e := 0x510e527fade682d1, f := 0x9b05688c2b3e6c1f,
    g := 0x1f83d9abfb41bd6b, h := 0x5be0cd19137e2179 }

/-- Big-endian value of a run of bytes. -/
def beWord (bs : List Nat) : Nat := bs.foldl (fun acc b => acc * 256 + b % 256) 0

/-- Big-endian bytes of `x`, `n` of them. -/
def beBytes : Nat → Nat → List Nat
  | 0, _ => []
  | n + 1, x => (x >>> (8 * n)) % 256 :: beBytes n x

/-- Message padding: `0x80`, zeros up to 112 modulo 128, then the bit length on 16 bytes. -/
def pad (msg : List Nat) : List Nat :=
  msg ++ [0x80] ++ List.replicate ((128 + 112 - (msg.length + 1) % 128) % 128) 0
    ++ beBytes 16 (8 * msg.length)

/-- Cut a byte string into `n` groups of `size` bytes. -/
def chunks (size : Nat) : Nat → List Nat → List (List Nat)
  | 0, _ => []
  | n + 1, bs => bs.take size :: chunks size n (bs.drop size)

/-- Extend the message schedule by `n` words; `ws` holds the words newest first. -/
def extend : Nat → List Nat → List Nat
  | 0, ws => ws
  | n + 1, ws =>
    let w2 := ws.getD 1 0
    let w7 := ws.getD 6 0
    let w15 := ws.getD 14 0
    let w16 := ws.getD 15 0
    let s0 := rotr w15 1 ^^^ rotr w15 8 ^^^ (w15 >>> 7)
    let s1 := rotr w2 19 ^^^ rotr w2 61 ^^^ (w2 >>> 6)
    extend n (((s1 + w7 + s0 + w16) % wordMod) :: ws)

/-- The 80-word message schedule of one 128-byte block. -/
def schedule (block : List Nat) : List Nat :=
  (extend 64 ((chunks 8 16 block).map beWord).reverse).reverse

/-- One round of the compression function. -/
def round (s : Words) (kw : Nat × Nat) : Words :=
  let t1 := (s.h + (rotr s.e 14 ^^^ rotr s.e 18 ^^^ rotr s.e 41)
    + ((s.e &&& s.f) ^^^ (not64 s.e &&& s.g)) + kw.1 + kw.2) % wordMod
  let t2 := ((rotr s.a 28 ^^^ rotr s.a 34 ^^^ rotr s.a 39)
    + ((s.a &&& s.b) ^^^ (s.a &&& s.c) ^^^ (s.b &&& s.c))) % wordMod
  { a := (t1 + t2) % wordMod, b := s.a, c := s.b, d := s.c,
    e := (s.d + t1) % wordMod, f := s.e, g := s.f, h := s.g }

/-- Compress one block into the chaining state. -/
def compress (s : Words) (block : List Nat) : Words :=
  let r := (K.zip (schedule block)).foldl round s
  { a := (s.a + r.a) % wordMod, b := (s.b + r.b) % wordMod, c := (s.c + r.c) % wordMod,
    d := (s.d + r.d) % wordMod, e := (s.e + r.e) % wordMod, f := (s.f + r.f) % wordMod,
    g := (s.g + r.g) % wordMod, h := (s.h + r.h) % wordMod }

/-- The 64 bytes of the final state, big-endian word by word. -/
def output (s : Words) : List Nat :=
  beBytes 8 s.a ++ beBytes 8 s.b ++ beBytes 8 s.c ++ beBytes 8 s.d
    ++ beBytes 8 s.e ++ beBytes 8 s.f ++ beBytes 8 s.g ++ beBytes 8 s.h

/-- SHA-512 of a byte string: `h := sha512.New(); h.Write(msg); h.Sum(nil)`. -/
def sum (msg : List Nat) : List Nat :=
  let p := pad msg
  output ((chunks 128 (p.length / 128) p).foldl compress iv)

end Sha512

namespace Base64

/-- Alphabet of `base64.StdEncoding`. -/
def encodeStd : List Char :=
  "ABCDEFGHIJKLMNOPQRSTUVWXYZabcdefghijklmnopqrstuvwxyz0123456789+/".data

/-- Alphabet of `base64.URLEncoding`. -/
def encodeURL : List Char :=
  "ABCDEFGHIJKLMNOPQRSTUVWXYZabcdefghijklmnopqrstuvwxyz0123456789-_".data

/-- The character of a 6-bit value in an alphabet. -/
def sym (alphabet : List Char) (v : Nat) : Char := alphabet.getD (v % 64) 'A'

/-- The encoding loop of `(*Encoding).Encode` with `=` padding: three bytes give four
characters, a remainder of one byte gives two characters and `==`, of two bytes three
characters and `=`. -/
def encode (alphabet : List Char) : List Nat → List Char
  | [] => []
  | [b0] =>
    let val := (b0 % 256) <<< 16
    [sym alphabet (val >>> 18), sym alphabet (val >>> 12), '=', '=']
  | [b0, b1] =>
    let val := (b0 % 256) <<< 16 ||| (b1 % 256) <<< 8
    [sym alphabet (val >>> 18), sym alphabet (val >>> 12), sym alphabet (val >>> 6), '=']
  | b0 :: b1 :: b2 :: rest =>
    let val := (b0 % 256) <<< 16 ||| (b1 % 256) <<< 8 ||| (b2 % 256)
    sym alphabet (val >>> 18) :: sym alphabet (val >>> 12) :: sym alphabet (val >>> 6)
      :: sym alphabet val :: encode alphabet rest

/-- Model of `enc.EncodeToString(src)`. -/
def EncodeToString (alphabet : List Char) (src : List Nat) : String :=
  String.mk (encode alphabet src)

end Base64

/-- The bytes of a Go string, `[]byte(pwd)`: the UTF-8 encoding of its characters. -/
def bytesOf (s : String) : List Nat :=
  (s.data.flatMap String.utf8EncodeChar).map UInt8.toNat

/-- The digest computed by `hashPassword` (handlers.go lines 130-132):
`base64.URLEncoding.EncodeToString` of the SHA-512 of the bytes of `pwd`. -/
def digestOf (pwd : String) : String :=
  Base64.EncodeToString Base64.encodeURL (Sha512.sum (bytesOf pwd))

/-- The digest that the documentation of `GetHash` and the specification describe:
standard-alphabet base64 of the SHA-512 of the bytes of `pwd`. -/
def stdDigestOf (pwd : String) : String :=
  Base64.EncodeToString Base64.encodeStd (Sha512.sum (bytesOf pwd))


/-! ## `strconv.Itoa` -/

/-- The character of a decimal digit. -/
def digitChar (d : Nat) : Char := Char.ofNat (48 + d)

/-- Decimal digits of `n`, least significant first; `fuel` bounds the number of digits. -/
def digitsRev : Nat → Nat → List Nat
  | 0, _ => []
  | fuel + 1, n => if n = 0 then [] else n % 10 :: digitsRev fuel (n / 10)

/-- Decimal string of a natural number. -/
def utoa (n : Nat) : String :=
  if n = 0 then "0" else String.mk ((digitsRev n n).reverse.map digitChar)

/-- Model of `strconv.Itoa`: the decimal string of an integer, `-` first when negative. -/
def Itoa (i : Int) : String :=
  if i < 0 then "-" ++ utoa i.natAbs else utoa i.toNat

/-! ## The package-level variables of `handlers.go` -/

/-- `HashResult` (handlers.go lines 16-19): `duration` is an `int64`. -/
structure HashResult where
  duration : Int
  hash : String
deriving DecidableEq, Repr

/-- The map `requestResponses`, as the list of its entries in insertion order. -/
abbrev Store := List (String × HashResult)

/-- Map read `requestResponses[id]` with the comma-ok form. -/
def Store.get : Store → String → Option HashResult
  | [], _ => none
  | (k, v) :: rest, id => if k = id then some v else Store.get rest id

/-- Map write `requestResponses[id] = v`: replaces the entry of `id` or adds one. -/
def Store.put : Store → String → HashResult → Store
  | [], id, v => [(id, v)]
  | (k, old) :: rest, id, v =>
    if k = id then (k, v) :: rest else (k, old) :: Store.put rest id v

/-- Wrap an integer to the `int64` range (Go integer arithmetic wraps around). -/
def wrap64 (x : Int) : Int := (x + 2 ^ 63) % 2 ^ 64 - 2 ^ 63

/-- A channel of `bool` made by `make(chan bool, cap)`: the number of queued values and
whether it has been closed. Every value ever sent on `ShutdownChan` is `true`. -/
structure Chan where
  cap : Nat
  buf : Nat
  closed : Bool
deriving DecidableEq, Repr

/-- What a send statement does. -/
inductive SendResult
  | sent (c : Chan)
  | blocked
  | panic
deriving DecidableEq, Repr

/-- Send `c <- true`: panics on a closed channel, queues the value when there is room,
and blocks otherwise. -/
def Chan.send (c : Chan) : SendResult :=
  if c.closed then .panic
  else if c.buf < c.cap then .sent { c with buf := c.buf + 1 }
  else .blocked

/-- Receive `<-c`: takes a queued value, returns at once on a closed and empty channel,
and blocks (`none`) otherwise. -/
def Chan.recv (c : Chan) : Option Chan :=
  if 0 < c.buf then some { c with buf := c.buf - 1 }
  else if c.closed then some c
  else none

/-- Close `close(c)`: panics (`none`) on a channel that is already closed. -/
def Chan.close (c : Chan) : Option Chan :=
  if c.closed then none else some { c with closed := true }

/-- Where a goroutine running `hashPassword` stands. -/
inductive Phase
  | launched
  | sleeping (start : Nat)
  | sending
  | finished
  | panicked
deriving DecidableEq, Repr

/-- Whether `hashPassword` has executed its store write (line 135). -/
def Phase.written : Phase → Bool
  | .launched => false
  | .sleeping _ => false
  | .sending => true
  | .finished => true
  | .panicked => true

/-- A goroutine started by `go hashPassword(req, pwd)`. -/
structure Worker where
  index : String
  pwd : String
  phase : Phase
deriving DecidableEq, Repr

/-- The state of the process: the three package variables of `handlers.go`, the
`hashPassword` goroutines in launch order, the number of `Shutdown` handlers blocked on
their send (line 227), the number of receives `gracefullShutdown` has completed (main.go
lines 37 and 41, both on `ShutdownChan`), and the monotonic clock in nanoseconds. -/
structure State where
  shuttingDown : Bool
  requestResponses : Store
  ShutdownChan : Chan
  workers : List Worker
  parked : Nat
  gsPc : Nat
  clock : Nat
deriving DecidableEq, Repr

/-- The state after `InitializeRoutes` (handlers.go lines 160-164): an empty map, a
channel of capacity one, `shuttingDown` at its zero value. -/
def State.init : State :=
  { shuttingDown := false, requestResponses := [],
    ShutdownChan := { cap := 1, buf := 0, closed := false },
    workers := [], parked := 0, gsPc := 0, clock := 0 }

/-- An HTTP answer: status code and body (`200` when the handler never calls
`WriteHeader`). -/
structure Response where
  status : Nat
  body : String
deriving DecidableEq, Repr

/-- How a handler that sends on a channel ends. -/
inductive Outcome
  | response (r : Response)
  | blocked
  | panic
deriving DecidableEq, Repr

/-! ## The handlers -/

/-- `GetHash` (handlers.go lines 33-58). -/
def GetHash (st : State) (method id : String) : Response :=
  if st.shuttingDown then ⟨503, "server shutting down"⟩
  else if method = "GET" then
    match st.requestResponses.get id with
    | none => ⟨404, ""⟩
    | some val => ⟨200, val.hash⟩
  else ⟨405, "invalid http method"⟩

/-- `HandleIndex` (handlers.go lines 61-71). -/
def HandleIndex (st : State) : Response :=
  if st.shuttingDown then ⟨503, "server shutting down"⟩
  else ⟨200, "\x7b \"msg\" : \"Hello, this is the index page of Greg Winkler's coding assignment in Go\" \x7d"⟩

/-- `ProcessHash` (handlers.go lines 77-113); `pwd` is `r.Form.Get("password")`. The
goroutine of line 110 is added to `workers`. -/
def ProcessHash (st : State) (method pwd : String) : Response × State :=
  if st.shuttingDown then (⟨503, "server shutting down"⟩, st)
  else if method ≠ "POST" then (⟨405, "invalid http method"⟩, st)
  else if pwd = "" then (⟨422, "Missing password argument"⟩, st)
  else
    let req := Itoa ((st.requestResponses.length : Int) + 1)
    (⟨200, req⟩,
      { st with
        requestResponses := st.requestResponses.put req { duration := -1, hash := "" }
        workers := st.workers ++ [{ index := req, pwd := pwd, phase := .launched }] })

/-- `pendingRequestsExist` (handlers.go lines 148-156). -/
def pendingRequestsExist (m : Store) : Bool := m.any (fun e => e.2.hash == "")

/-- `time.Since(start).Milliseconds()` on the monotonic clock: a `Duration` is an `int64`
of nanoseconds and saturates. -/
def sinceMs (start now : Nat) : Int := ((min (now - start) (2 ^ 63 - 1) / 1000000 : Nat) : Int)

/-- Lines 139-140 of `hashPassword`: send on `ShutdownChan`, then close it. -/
def signalDrained (c : Chan) : Chan × Phase :=
  match c.send with
  | .sent c1 =>
    match c1.close with
    | some c2 => (c2, .finished)
    | none => (c1, .panicked)
  | .blocked => (c, .sending)
  | .panic => (c, .panicked)

/-- Lines 130-142 of `hashPassword`, run when the sleep of line 128 is over: compute the
digest and the duration, write the entry, and signal when draining with nothing pending. -/
def hashPassword (st : State) (index pwd : String) (start : Nat) : State × Phase :=
  let hash := digestOf pwd
  let duration := sinceMs start st.clock
  let m := st.requestResponses.put index { hash := hash, duration := duration }
  if st.shuttingDown then
    if !pendingRequestsExist m then
      let r := signalDrained st.ShutdownChan
      ({ st with requestResponses := m, ShutdownChan := r.1 }, r.2)
    else ({ st with requestResponses := m }, .finished)
  else ({ st with requestResponses := m }, .finished)

/-- The loop of `GetStats` (handlers.go lines 197-204): `(sum, num)` over the entries
with a non-empty hash, in `int64` arithmetic. -/
def statsLoop (m : Store) : Int × Int :=
  m.foldl (fun acc e =>
    if e.2.hash ≠ "" then (wrap64 (acc.1 + e.2.duration), wrap64 (acc.2 + 1)) else acc) (0, 0)

/-- The JSON text `fmt.Fprintf(w, "{ \"total\" : %v, \"average\" : %v }", total, average)`. -/
def statsBody (total average : Int) : String :=
  "\x7b \"total\" : " ++ Itoa total ++ ", \"average\" : " ++ Itoa average ++ " \x7d"

/-- `GetStats` (handlers.go lines 182-213); `sum/num` is Go's truncated division and
`int` is 64 bits wide. -/
def GetStats (st : State) (method : String) : Response :=
  if st.shuttingDown then ⟨503, "server shutting down"⟩
  else if method ≠ "GET" then ⟨405, "invalid http method"⟩
  else
    let r := statsLoop st.requestResponses
    if r.2 = 0 then ⟨200, "\x7b \"total\" : 0, \"average\" : 0 \x7d"⟩
    else ⟨200, statsBody r.2 (Int.tdiv r.1 r.2)⟩

/-- `Shutdown` (handlers.go lines 219-229): one send on `ShutdownChan`, then the flag. -/
def Shutdown (st : State) (method : String) : Outcome × State :=
  if method ≠ "GET" then (.response ⟨405, "invalid http method"⟩, st)
  else
    match st.ShutdownChan.send with
    | .sent c => (.response ⟨200, ""⟩, { st with ShutdownChan := c, shuttingDown := true })
    | .blocked => (.blocked, { st with parked := st.parked + 1 })
    | .panic => (.panic, st)

/-- A `Shutdown` handler blocked at line 227 tries its send again and goes on to line 228. -/
def resumeShutdown (st : State) : Outcome × State :=
  if st.parked = 0 then (.blocked, st)
  else
    match st.ShutdownChan.send with
    | .sent c =>
      (.response ⟨200, ""⟩,
        { st with ShutdownChan := c, shuttingDown := true, parked := st.parked - 1 })
    | .blocked => (.blocked, st)
    | .panic => (.panic, { st with parked := st.parked - 1 })

/-- One receive of `gracefullShutdown` (main.go line 37, then line 41); `gsPc = 2` means
that it is past the second receive, where it stops the server and the process exits. -/
def gracefullShutdown (st : State) : State :=
  if st.gsPc < 2 then
    match st.ShutdownChan.recv with
    | some c => { st with ShutdownChan := c, gsPc := st.gsPc + 1 }
    | none => st
  else st

/-! ## Runs -/

/-- The duration of `time.Sleep(5 * time.Second)` in nanoseconds. -/
def sleepNs : Nat := 5 * 1000000000

/-- The atomic steps of a run. -/
inductive Event
  | index
  | postHash (method pwd : String)
  | getHash (method id : String)
  | stats (method : String)
  | shutdown (method : String)
  | shutdownRetry
  | workerStart (k : Nat)
  | workerWake (k : Nat)
  | workerRetry (k : Nat)
  | gsRecv
  | tick (d : Nat)
deriving DecidableEq, Repr

/-- Worker `k` runs line 126 and goes to sleep. -/
def workerStart (st : State) (k : Nat) : State :=
  match st.workers[k]? with
  | some w =>
    match w.phase with
    | .launched => { st with workers := st.workers.set k { w with phase := .sleeping st.clock } }
    | _ => st
  | none => st

/-- Worker `k` wakes up once five seconds have passed and runs lines 130-142. -/
def workerWake (st : State) (k : Nat) : State :=
  match st.workers[k]? with
  | some w =>
    match w.phase with
    | .sleeping start =>
      if start + sleepNs ≤ st.clock then
        let r := hashPassword st w.index w.pwd start
        { r.1 with workers := st.workers.set k { w with phase := r.2 } }
      else st
    | _ => st
  | none => st

/-- Worker `k`, blocked on the send of line 139, tries again. -/
def workerRetry (st : State) (k : Nat) : State :=
  match st.workers[k]? with
  | some w =>
    match w.phase with
    | .sending =>
      let r := signalDrained st.ShutdownChan
      { st with ShutdownChan := r.1, workers := st.workers.set k { w with phase := r.2 } }
    | _ => st
  | none => st

/-- One step of the process. -/
def step (st : State) : Event → State
  | .index => st
  | .postHash method pwd => (ProcessHash st method pwd).2
  | .getHash _ _ => st
  | .stats _ => st
  | .shutdown method => (Shutdown st method).2
  | .shutdownRetry => (resumeShutdown st).2
  | .workerStart k => workerStart st k
  | .workerWake k => workerWake st k
  | .workerRetry k => workerRetry st k
  | .gsRecv => gracefullShutdown st
  | .tick d => { st with clock := st.clock + d }

/-- The state after a run. -/
def exec (st : State) (evs : List Event) : State := evs.foldl step st

/-- The identifiers returned by the accepted submissions of a run, in order. -/
def issued : State → List Event → List String
  | _, [] => []
  | st, .postHash method pwd :: evs =>
    let r := ProcessHash st method pwd
    if r.1.status = 200 then r.1.body :: issued r.2 evs else issued r.2 evs
  | st, e :: evs => issued (step st e) evs


/-- Value of a list of decimal digits, least significant first. -/
def ofDigitsRev : List Nat → Nat
  | [] => 0
  | d :: ds => d + 10 * ofDigitsRev ds

/-! ## Invariant of the runs -/

/-- What the entry of a worker's job holds: the pending entry until line 135 has run,
afterwards the digest of the worker's password with a non-negative duration. -/
def JobEntry (w : Worker) (r : HashResult) : Prop :=
  if w.phase.written then r.hash = digestOf w.pwd ∧ 0 ≤ r.duration
  else r = { duration := -1, hash := "" }

/-- The invariant of the runs from `State.init`: the keys of the map are the decimal
strings of `1 .. len`, every worker's job has its entry, distinct workers have distinct
identifiers, and every entry is pending or completed. -/
structure RunInv (st : State) : Prop where
  keys : ∀ id, (st.requestResponses.get id).isSome ↔
    ∃ k : Nat, k < st.requestResponses.length ∧ id = Itoa ((k : Int) + 1)
  jobs : ∀ (i : Nat) (w : Worker), st.workers[i]? = some w →
    ∃ r, st.requestResponses.get w.index = some r ∧ JobEntry w r
  distinct : ∀ (i j : Nat) (wi wj : Worker), st.workers[i]? = some wi →
    st.workers[j]? = some wj →
    wi.index = wj.index → i = j
  entries : ∀ id r, st.requestResponses.get id = some r →
    r = { duration := -1, hash := "" } ∨ (r.hash ≠ "" ∧ 0 ≤ r.duration)

/-! ## The statistics as the specification states them -/

/-- The durations of the completed jobs: the entries with a non-empty hash. -/
def completedDurations (m : Store) : List Int :=
  (m.filter (fun e => e.2.hash ≠ "")).map (fun e => e.2.duration)

set_option maxRecDepth 100000

/-! ## Test vectors of the library models -/

/-- SHA-512 of "abc", the one-block test vector of FIPS 180-4. -/
theorem Sha512.sum_abc :
    Sha512.sum [97, 98, 99] = [
      221, 175, 53, 161, 147, 97, 122, 186, 204, 65, 115, 73, 174, 32, 65, 49,
      18, 230, 250, 78, 137, 169, 126, 162, 10, 158, 238, 230, 75, 85, 211, 154,
      33, 146, 153, 42, 39, 79, 193, 168, 54, 186, 60, 35, 163, 254, 235, 189,
      69, 77, 68, 35, 100, 60, 232, 14, 42, 154, 201, 79, 165, 76, 164, 159] := by
  decide

/-- SHA-512 of two hundred bytes "a": a message of two blocks. -/
theorem Sha512.sum_two_blocks :
    Sha512.sum (List.replicate 200 97) = [
      75, 17, 69, 156, 51, 245, 42, 34, 238, 130, 54, 120, 39, 20, 193, 80,
      163, 178, 198, 9, 148, 233, 172, 238, 23, 254, 104, 148, 122, 62, 103, 137,
      243, 30, 118, 104, 57, 69, 146, 218, 123, 239, 130, 124, 221, 202, 136, 196,
      230, 248, 110, 77, 247, 237, 26, 230, 203, 167, 31, 62, 152, 250, 238, 159] := by
  decide

/-- Decimal strings of a few integers. -/
theorem Itoa_examples :
    Itoa 0 = "0" ∧ Itoa 1 = "1" ∧ Itoa 10 = "10" ∧ Itoa 42 = "42" ∧ Itoa 1000 = "1000" ∧
      Itoa (-7) = "-7" := by
  decide

/-! ## Decimal strings are injective -/

theorem ofDigitsRev_digitsRev : ∀ (fuel n : Nat), n ≤ fuel → ofDigitsRev (digitsRev fuel n) = n := by
  intro fuel
  induction fuel with
  | zero => intro n hn; simp [digitsRev, ofDigitsRev]; omega
  | succ fuel ih =>
    intro n hn
    unfold digitsRev
    split
    · simp [ofDigitsRev]; omega
    · have h := ih (n / 10) (by omega)
      simp only [ofDigitsRev, h]
      omega

theorem digitsRev_lt : ∀ (fuel n d : Nat), d ∈ digitsRev fuel n → d < 10 := by
  intro fuel
  induction fuel with
  | zero => intro n d hd; simp [digitsRev] at hd
  | succ fuel ih =>
    intro n d hd
    unfold digitsRev at hd
    split at hd
    · simp at hd
    · rcases List.mem_cons.1 hd with h | h
      · omega
      · exact ih _ _ h

theorem digitChar_toNat : ∀ d, d < 10 → (digitChar d).toNat = 48 + d := by decide

theorem digitsRev_ne_nil (n : Nat) (h : n ≠ 0) : digitsRev n n ≠ [] := by
  cases n with
  | zero => exact absurd rfl h
  | succ m => simp [digitsRev]

theorem utoa_injective (a b : Nat) (h : utoa a = utoa b) : a = b := by
  have key : ∀ n, n ≠ 0 →
      (utoa n).data.map Char.toNat = (digitsRev n n).reverse.map (fun d => 48 + d) := by
    intro n hn
    simp only [utoa, hn, if_false, List.map_map]
    apply List.map_congr_left
    intro d hd
    exact digitChar_toNat d (digitsRev_lt n n d (List.mem_reverse.1 hd))
  have zero : (utoa 0).data.map Char.toNat = [48] := by decide
  have inj : Function.Injective (fun d : Nat => 48 + d) := fun x y hxy => by
    simp only at hxy; omega
  by_cases ha : a = 0
  · by_cases hb : b = 0
    · omega
    · exfalso
      have h1 := key b hb
      rw [← h, ha, zero] at h1
      cases hd : digitsRev b b with
      | nil => exact digitsRev_ne_nil b hb hd
      | cons d ds =>
        have hlt := digitsRev_lt b b
        have hval := ofDigitsRev_digitsRev b b le_rfl
        rw [hd] at h1 hlt hval
        have h2 := congrArg List.reverse h1
        simp only [List.reverse_cons, List.reverse_nil, List.nil_append, List.map_reverse,
          List.reverse_reverse, List.map_cons] at h2
        cases ds with
        | nil =>
          simp at h2
          simp [ofDigitsRev] at hval
          omega
        | cons e es => simp at h2
  · by_cases hb : b = 0
    · exfalso
      have h1 := key a ha
      rw [h, hb, zero] at h1
      cases hd : digitsRev a a with
      | nil => exact digitsRev_ne_nil a ha hd
      | cons d ds =>
        have hval := ofDigitsRev_digitsRev a a le_rfl
        rw [hd] at h1 hval
        have h2 := congrArg List.reverse h1
        simp only [List.reverse_cons, List.reverse_nil, List.nil_append, List.map_reverse,
          List.reverse_reverse, List.map_cons] at h2
        cases ds with
        | nil =>
          simp at h2
          simp [ofDigitsRev] at hval
          omega
        | cons e es => simp at h2
    · have h1 := key a ha
      have h2 := key b hb
      rw [h, h2] at h1
      have h3 := (List.map_injective_iff.2 inj) h1
      have h4 := List.reverse_injective h3
      have := ofDigitsRev_digitsRev a a le_rfl
      rw [← h4] at this
      rw [ofDigitsRev_digitsRev b b le_rfl] at this
      exact this.symm

theorem Itoa_succ (n : Nat) : Itoa ((n : Int) + 1) = utoa (n + 1) := by
  have h : ¬ ((n : Int) + 1 < 0) := by omega
  simp only [Itoa, h, if_false]
  congr 1

theorem Itoa_succ_injective (a b : Nat) (h : Itoa ((a : Int) + 1) = Itoa ((b : Int) + 1)) :
    a = b := by
  rw [Itoa_succ, Itoa_succ] at h
  have := utoa_injective _ _ h
  omega

/-! ## The digest is never empty -/

theorem Sha512.beBytes_length : ∀ (n x : Nat), (Sha512.beBytes n x).length = n := by
  intro n
  induction n with
  | zero => intro x; rfl
  | succ n ih => intro x; simp [Sha512.beBytes, ih]

theorem Sha512.sum_length (msg : List Nat) : (Sha512.sum msg).length = 64 := by
  simp [Sha512.sum, Sha512.output, Sha512.beBytes_length]

theorem Base64.encode_length (alphabet : List Char) :
    ∀ (n : Nat) (src : List Nat), src.length ≤ n →
      (Base64.encode alphabet src).length = 4 * ((src.length + 2) / 3) := by
  intro n
  induction n using Nat.strong_induction_on with
  | _ n ih =>
    intro src hn
    match src with
    | [] => simp [Base64.encode]
    | [b0] => simp [Base64.encode]
    | [b0, b1] => simp [Base64.encode]
    | b0 :: b1 :: b2 :: rest =>
      simp only [Base64.encode, List.length_cons]
      simp only [List.length_cons] at hn
      rw [ih rest.length (by omega) rest le_rfl]
      omega

theorem digestOf_length (pwd : String) : (digestOf pwd).length = 88 := by
  simp only [digestOf, Base64.EncodeToString, String.length]
  rw [Base64.encode_length _ _ _ le_rfl, Sha512.sum_length]

theorem digestOf_ne_empty (pwd : String) : digestOf pwd ≠ "" := by
  intro h
  have := digestOf_length pwd
  rw [h] at this
  exact absurd this (by decide)

/-! ## The map -/

theorem Store.get_put (m : Store) (k k' : String) (v : HashResult) :
    (m.put k v).get k' = if k' = k then some v else m.get k' := by
  induction m with
  | nil =>
    by_cases h : k' = k
    · simp [Store.put, Store.get, h]
    · have h' : ¬ k = k' := fun e => h e.symm
      simp [Store.put, Store.get, h, h']
  | cons e rest ih =>
    obtain ⟨k0, old⟩ := e
    by_cases h0 : k0 = k
    · subst h0
      by_cases h : k' = k0
      · simp [Store.put, Store.get, h]
      · have h' : ¬ k0 = k' := fun e => h e.symm
        simp [Store.put, Store.get, h, h']
    · by_cases h : k' = k
      · subst h
        simp [Store.put, Store.get, h0, ih]
      · by_cases h1 : k0 = k'
        · simp [Store.put, Store.get, h0, h, h1]
        · simp [Store.put, Store.get, h0, h, h1, ih]

theorem Store.put_fresh (m : Store) (k : String) (v : HashResult) (h : m.get k = none) :
    m.put k v = m ++ [(k, v)] := by
  induction m with
  | nil => rfl
  | cons e rest ih =>
    obtain ⟨k0, old⟩ := e
    by_cases h0 : k0 = k
    · simp [Store.get, h0] at h
    · have hr : Store.get rest k = none := by
        simpa [Store.get, h0] using h
      simp [Store.put, h0, ih hr]

theorem Store.length_put_present (m : Store) (k : String) (v : HashResult)
    (h : (m.get k).isSome) : (m.put k v).length = m.length := by
  induction m with
  | nil => simp [Store.get] at h
  | cons e rest ih =>
    obtain ⟨k0, old⟩ := e
    by_cases h0 : k0 = k
    · simp [Store.put, h0]
    · have hr : (Store.get rest k).isSome := by
        simpa [Store.get, h0] using h
      simp [Store.put, h0, ih hr]

/-! ## The invariant holds in every run -/

theorem RunInv.init : RunInv State.init := by
  refine ⟨?_, ?_, ?_, ?_⟩
  · intro id
    simp [State.init, Store.get]
  · intro i w h
    simp [State.init] at h
  · intro i j wi wj h
    simp [State.init] at h
  · intro id r h
    simp [State.init, Store.get] at h

theorem RunInv.congr {st st' : State} (h : RunInv st)
    (hs : st'.requestResponses = st.requestResponses) (hw : st'.workers = st.workers) :
    RunInv st' := by
  refine ⟨?_, ?_, ?_, ?_⟩
  · rw [hs]; exact h.keys
  · rw [hs, hw]; exact h.jobs
  · rw [hw]; exact h.distinct
  · rw [hs]; exact h.entries

theorem RunInv.fresh {st : State} (h : RunInv st) :
    st.requestResponses.get (Itoa ((st.requestResponses.length : Int) + 1)) = none := by
  cases hg : st.requestResponses.get (Itoa ((st.requestResponses.length : Int) + 1)) with
  | none => rfl
  | some r =>
    exfalso
    have := (h.keys _).1 (by rw [hg]; rfl)
    obtain ⟨k, hk, he⟩ := this
    have := Itoa_succ_injective _ _ he
    omega

theorem getElem?_append_singleton {α : Type} (l : List α) (a b : α) (n : Nat)
    (h : (l ++ [a])[n]? = some b) :
    (n < l.length ∧ l[n]? = some b) ∨ (n = l.length ∧ b = a) := by
  by_cases hlt : n < l.length
  · rw [List.getElem?_append_left hlt] at h
    exact Or.inl ⟨hlt, h⟩
  · rw [List.getElem?_append_right (by omega)] at h
    by_cases hz : n - l.length = 0
    · rw [hz] at h
      simp only [List.getElem?_cons_zero, Option.some.injEq] at h
      exact Or.inr ⟨by omega, h.symm⟩
    · have : ([a] : List α)[n - l.length]? = none := by
        apply List.getElem?_eq_none
        simp only [List.length_singleton]
        omega
      rw [this] at h
      exact absurd h (by simp)

/-- An accepted submission keeps the invariant. -/
theorem RunInv.submit {st : State} (h : RunInv st) (pwd : String) :
    RunInv { st with
      requestResponses := st.requestResponses.put
        (Itoa ((st.requestResponses.length : Int) + 1)) { duration := -1, hash := "" }
      workers := st.workers ++
        [{ index := Itoa ((st.requestResponses.length : Int) + 1), pwd := pwd,
           phase := .launched }] } := by
  have hfresh := h.fresh
  have hput := Store.put_fresh _ _ ({ duration := -1, hash := "" } : HashResult) hfresh
  have hold : ∀ (n : Nat) (w : Worker), st.workers[n]? = some w →
      w.index ≠ Itoa ((st.requestResponses.length : Int) + 1) := by
    intro n w hn he
    obtain ⟨r, hr, _⟩ := h.jobs n w hn
    rw [he, hfresh] at hr
    exact absurd hr (by simp)
  refine ⟨?_, ?_, ?_, ?_⟩
  · intro id
    simp only [Store.get_put]
    rw [hput, List.length_append, List.length_singleton]
    by_cases hid : id = Itoa ((st.requestResponses.length : Int) + 1)
    · simp only [hid, if_true, Option.isSome_some, true_iff]
      exact ⟨st.requestResponses.length, by omega, rfl⟩
    · simp only [hid, if_false]
      rw [h.keys id]
      constructor
      · rintro ⟨k, hk, he⟩
        exact ⟨k, by omega, he⟩
      · rintro ⟨k, hk, he⟩
        by_cases hkl : k = st.requestResponses.length
        · subst hkl; exact absurd he hid
        · exact ⟨k, by omega, he⟩
  · intro i w hw
    simp only [Store.get_put]
    rcases getElem?_append_singleton _ _ _ _ hw with ⟨_, h1⟩ | ⟨_, h1⟩
    · obtain ⟨r, hr, hj⟩ := h.jobs i w h1
      exact ⟨r, by simp [hold i w h1, hr], hj⟩
    · subst h1
      exact ⟨{ duration := -1, hash := "" }, by simp, by simp [JobEntry, Phase.written]⟩
  · intro i j wi wj hwi hwj hij
    rcases getElem?_append_singleton _ _ _ _ hwi with ⟨_, h1⟩ | ⟨h1, h1'⟩
    · rcases getElem?_append_singleton _ _ _ _ hwj with ⟨_, h2⟩ | ⟨h2, h2'⟩
      · exact h.distinct i j wi wj h1 h2 hij
      · subst h2'
        exact absurd hij (hold i wi h1)
    · rcases getElem?_append_singleton _ _ _ _ hwj with ⟨_, h2⟩ | ⟨h2, h2'⟩
      · subst h1'
        exact absurd hij.symm (hold j wj h2)
      · omega
  · intro id r hr
    simp only [Store.get_put] at hr
    by_cases hid : id = Itoa ((st.requestResponses.length : Int) + 1)
    · simp only [hid, if_true, Option.some.injEq] at hr
      exact Or.inl hr.symm
    · simp only [hid, if_false] at hr
      exact h.entries id r hr

theorem getElem?_set_cases {α : Type} (l : List α) (k n : Nat) (a b : α)
    (h : (l.set k a)[n]? = some b) :
    (n = k ∧ b = a) ∨ (n ≠ k ∧ l[n]? = some b) := by
  by_cases hn : n = k
  · subst hn
    by_cases hl : n < l.length
    · rw [List.getElem?_set_self hl] at h
      exact Or.inl ⟨rfl, (Option.some.inj h).symm⟩
    · have : (l.set n a)[n]? = none := by
        apply List.getElem?_eq_none
        simp only [List.length_set]
        omega
      rw [this] at h
      exact absurd h (by simp)
  · rw [List.getElem?_set_ne (fun e => hn e.symm)] at h
    exact Or.inr ⟨hn, h⟩

/-- A worker step that leaves the map alone and does not cross line 135 keeps the
invariant. -/
theorem RunInv.setPhase {st st' : State} (h : RunInv st) (k : Nat) (w : Worker) (ph : Phase)
    (hk : st.workers[k]? = some w) (hph : ph.written = w.phase.written)
    (hs : st'.requestResponses = st.requestResponses)
    (hw : st'.workers = st.workers.set k { w with phase := ph }) : RunInv st' := by
  refine ⟨?_, ?_, ?_, ?_⟩
  · rw [hs]; exact h.keys
  · intro i v hv
    rw [hw] at hv
    rw [hs]
    rcases getElem?_set_cases _ _ _ _ _ hv with ⟨_, h1⟩ | ⟨_, h1⟩
    · subst h1
      obtain ⟨r, hr, hj⟩ := h.jobs k w hk
      refine ⟨r, hr, ?_⟩
      simpa [JobEntry, hph] using hj
    · exact h.jobs i v h1
  · intro i j wi wj hwi hwj hij
    rw [hw] at hwi hwj
    rcases getElem?_set_cases _ _ _ _ _ hwi with ⟨hi, h1⟩ | ⟨hi, h1⟩
    · rcases getElem?_set_cases _ _ _ _ _ hwj with ⟨hj, h2⟩ | ⟨hj, h2⟩
      · omega
      · subst h1
        exact (h.distinct k j w wj hk h2 hij).symm ▸ hi
    · rcases getElem?_set_cases _ _ _ _ _ hwj with ⟨hj, h2⟩ | ⟨hj, h2⟩
      · subst h2
        exact (h.distinct i k wi w h1 hk hij).trans hj.symm
      · exact h.distinct i j wi wj h1 h2 hij
  · rw [hs]; exact h.entries

/-- The store write of line 135 by a worker that has not written yet keeps the
invariant. -/
theorem RunInv.write {st st' : State} (h : RunInv st) (k : Nat) (w : Worker) (ph : Phase)
    (d : Int) (hk : st.workers[k]? = some w)
    (hph : ph.written = true) (hd : 0 ≤ d)
    (hs : st'.requestResponses =
      st.requestResponses.put w.index { hash := digestOf w.pwd, duration := d })
    (hw : st'.workers = st.workers.set k { w with phase := ph }) : RunInv st' := by
  obtain ⟨r0, hr0, hj0⟩ := h.jobs k w hk
  have hpres : (st.requestResponses.get w.index).isSome := by rw [hr0]; rfl
  refine ⟨?_, ?_, ?_, ?_⟩
  · intro id
    rw [hs, Store.length_put_present _ _ _ hpres, Store.get_put]
    by_cases hid : id = w.index
    · simp only [hid, if_true, Option.isSome_some, true_iff]
      exact (h.keys w.index).1 hpres
    · simp only [hid, if_false]
      exact h.keys id
  · intro i v hv
    rw [hw] at hv
    rw [hs]
    simp only [Store.get_put]
    rcases getElem?_set_cases _ _ _ _ _ hv with ⟨_, h1⟩ | ⟨hne, h1⟩
    · subst h1
      exact ⟨{ hash := digestOf w.pwd, duration := d }, by simp, by simp [JobEntry, hph, hd]⟩
    · obtain ⟨r, hr, hj⟩ := h.jobs i v h1
      have hidx : v.index ≠ w.index := fun e => hne (h.distinct i k v w h1 hk e)
      exact ⟨r, by simp [hidx, hr], hj⟩
  · intro i j wi wj hwi hwj hij
    rw [hw] at hwi hwj
    rcases getElem?_set_cases _ _ _ _ _ hwi with ⟨hi, h1⟩ | ⟨hi, h1⟩
    · rcases getElem?_set_cases _ _ _ _ _ hwj with ⟨hj, h2⟩ | ⟨hj, h2⟩
      · omega
      · subst h1
        exact (h.distinct k j w wj hk h2 hij).symm ▸ hi
    · rcases getElem?_set_cases _ _ _ _ _ hwj with ⟨hj, h2⟩ | ⟨hj, h2⟩
      · subst h2
        exact (h.distinct i k wi w h1 hk hij).trans hj.symm
      · exact h.distinct i j wi wj h1 h2 hij
  · intro id r hr
    rw [hs] at hr
    simp only [Store.get_put] at hr
    by_cases hid : id = w.index
    · simp only [hid, if_true, Option.some.injEq] at hr
      subst hr
      exact Or.inr ⟨digestOf_ne_empty w.pwd, hd⟩
    · simp only [hid, if_false] at hr
      exact h.entries id r hr

theorem signalDrained_written (c : Chan) : (signalDrained c).2.written = true := by
  unfold signalDrained
  split
  · split <;> rfl
  · rfl
  · rfl

theorem hashPassword_store (st : State) (index pwd : String) (start : Nat) :
    (hashPassword st index pwd start).1.requestResponses =
      st.requestResponses.put index
        { hash := digestOf pwd, duration := sinceMs start st.clock } := by
  unfold hashPassword
  simp only
  split
  · split <;> rfl
  · rfl

theorem hashPassword_written (st : State) (index pwd : String) (start : Nat) :
    (hashPassword st index pwd start).2.written = true := by
  unfold hashPassword
  simp only
  split
  · split
    · exact signalDrained_written _
    · rfl
  · rfl

theorem sinceMs_nonneg (start now : Nat) : 0 ≤ sinceMs start now := by
  unfold sinceMs
  exact Int.ofNat_nonneg _

theorem ProcessHash_inv {st : State} (h : RunInv st) (method pwd : String) :
    RunInv (ProcessHash st method pwd).2 := by
  unfold ProcessHash
  split
  · exact h
  · split
    · exact h
    · split
      · exact h
      · exact h.submit pwd

theorem workerStart_inv {st : State} (h : RunInv st) (k : Nat) : RunInv (workerStart st k) := by
  unfold workerStart
  split
  · rename_i w hk
    split
    · rename_i hp
      exact h.setPhase k w (.sleeping st.clock) hk (by rw [hp]; rfl) rfl rfl
    · exact h
  · exact h

theorem workerWake_inv {st : State} (h : RunInv st) (k : Nat) : RunInv (workerWake st k) := by
  unfold workerWake
  split
  · rename_i w hk
    split
    · rename_i start hp
      split
      · exact h.write k w (hashPassword st w.index w.pwd start).2
          (sinceMs start st.clock) hk (hashPassword_written _ _ _ _) (sinceMs_nonneg _ _)
          (hashPassword_store _ _ _ _) rfl
      · exact h
    · exact h
  · exact h

theorem workerRetry_inv {st : State} (h : RunInv st) (k : Nat) : RunInv (workerRetry st k) := by
  unfold workerRetry
  split
  · rename_i w hk
    split
    · rename_i hp
      exact h.setPhase k w (signalDrained st.ShutdownChan).2 hk
        (by rw [hp, signalDrained_written]; rfl) rfl rfl
    · exact h
  · exact h

theorem Shutdown_inv {st : State} (h : RunInv st) (method : String) :
    RunInv (Shutdown st method).2 := by
  unfold Shutdown
  split
  · exact h
  · split
    · exact h.congr rfl rfl
    · exact h.congr rfl rfl
    · exact h

theorem resumeShutdown_inv {st : State} (h : RunInv st) : RunInv (resumeShutdown st).2 := by
  unfold resumeShutdown
  split
  · exact h
  · split
    · exact h.congr rfl rfl
    · exact h
    · exact h.congr rfl rfl

theorem gracefullShutdown_inv {st : State} (h : RunInv st) : RunInv (gracefullShutdown st) := by
  unfold gracefullShutdown
  split
  · split
    · exact h.congr rfl rfl
    · exact h
  · exact h

theorem step_inv {st : State} (h : RunInv st) (e : Event) : RunInv (step st e) := by
  cases e with
  | index => exact h
  | postHash method pwd => exact ProcessHash_inv h method pwd
  | getHash method id => exact h
  | stats method => exact h
  | shutdown method => exact Shutdown_inv h method
  | shutdownRetry => exact resumeShutdown_inv h
  | workerStart k => exact workerStart_inv h k
  | workerWake k => exact workerWake_inv h k
  | workerRetry k => exact workerRetry_inv h k
  | gsRecv => exact gracefullShutdown_inv h
  | tick d => exact h.congr rfl rfl

theorem exec_inv {st : State} (h : RunInv st) (evs : List Event) : RunInv (exec st evs) := by
  induction evs generalizing st with
  | nil => exact h
  | cons e evs ih => exact ih (step_inv h e)

theorem exec_append (st : State) (evs evs' : List Event) :
    exec st (evs ++ evs') = exec (exec st evs) evs' := by
  simp [exec, List.foldl_append]

/-! ## Submissions -/

theorem ProcessHash_accept (st : State) (method pwd : String)
    (hd : st.shuttingDown = false) (hm : method = "POST") (hp : pwd ≠ "") :
    ProcessHash st method pwd =
      (⟨200, Itoa ((st.requestResponses.length : Int) + 1)⟩,
        { st with
          requestResponses := st.requestResponses.put
            (Itoa ((st.requestResponses.length : Int) + 1)) { duration := -1, hash := "" }
          workers := st.workers ++
            [{ index := Itoa ((st.requestResponses.length : Int) + 1), pwd := pwd,
               phase := .launched }] }) := by
  simp [ProcessHash, hd, hm, hp]

theorem ProcessHash_reject (st : State) (method pwd : String)
    (h : ¬ (st.shuttingDown = false ∧ method = "POST" ∧ pwd ≠ "")) :
    ProcessHash st method pwd =
      (⟨if st.shuttingDown then 503 else if method ≠ "POST" then 405 else 422,
        if st.shuttingDown then "server shutting down"
        else if method ≠ "POST" then "invalid http method" else "Missing password argument"⟩,
        st) := by
  unfold ProcessHash
  by_cases hd : st.shuttingDown = true
  · simp [hd]
  · by_cases hm : method = "POST"
    · by_cases hp : pwd = ""
      · simp [hd, hm, hp]
      · exact absurd ⟨by simpa using hd, hm, hp⟩ h
    · simp [hd, hm]

theorem ProcessHash_status (st : State) (method pwd : String) :
    (ProcessHash st method pwd).1.status = 200 ↔
      (st.shuttingDown = false ∧ method = "POST" ∧ pwd ≠ "") := by
  constructor
  · intro h
    by_contra hc
    rw [ProcessHash_reject st method pwd hc] at h
    simp only at h
    split at h
    · omega
    · split at h <;> omega
  · rintro ⟨hd, hm, hp⟩
    rw [ProcessHash_accept st method pwd hd hm hp]

theorem issued_from {st : State} (h : RunInv st) (evs : List Event) :
    issued st evs = (List.range (issued st evs).length).map
        (fun k => Itoa (((st.requestResponses.length + k : Nat) : Int) + 1)) ∧
      (exec st evs).requestResponses.length =
        st.requestResponses.length + (issued st evs).length := by
  induction evs generalizing st with
  | nil => simp [issued, exec]
  | cons e evs ih =>
    have hstep : ∀ e', (∀ m p, e' ≠ Event.postHash m p) →
        (step st e').requestResponses = st.requestResponses ∨
        ∃ (k : Nat) (w : Worker) (d : Int), st.workers[k]? = some w ∧ (step st e').requestResponses =
          st.requestResponses.put w.index { hash := digestOf w.pwd, duration := d } := by
      intro e' hne
      cases e' with
      | postHash m p => exact absurd rfl (hne m p)
      | index => exact Or.inl rfl
      | getHash _ _ => exact Or.inl rfl
      | stats _ => exact Or.inl rfl
      | tick _ => exact Or.inl rfl
      | shutdown m =>
        left
        simp only [step, Shutdown]
        split
        · rfl
        · split <;> rfl
      | shutdownRetry =>
        left
        simp only [step, resumeShutdown]
        split
        · rfl
        · split <;> rfl
      | gsRecv =>
        left
        simp only [step, gracefullShutdown]
        split
        · split <;> rfl
        · rfl
      | workerStart k =>
        left
        simp only [step, workerStart]
        split
        · split <;> rfl
        · rfl
      | workerRetry k =>
        left
        simp only [step, workerRetry]
        split
        · split <;> rfl
        · rfl
      | workerWake k =>
        simp only [step, workerWake]
        split
        · rename_i w hk
          split
          · rename_i start hp
            split
            · right
              exact ⟨k, w, _, hk, hashPassword_store _ _ _ _⟩
            · exact Or.inl rfl
          · exact Or.inl rfl
        · exact Or.inl rfl
    have hlen : ∀ e', (∀ m p, e' ≠ Event.postHash m p) →
        (step st e').requestResponses.length = st.requestResponses.length := by
      intro e' hne
      rcases hstep e' hne with h1 | ⟨k, w, d, hk, h1⟩
      · rw [h1]
      · rw [h1]
        obtain ⟨r, hr, _⟩ := h.jobs k w hk
        exact Store.length_put_present _ _ _ (by rw [hr]; rfl)
    have other : ∀ e', (∀ m p, e' ≠ Event.postHash m p) → issued st (e' :: evs) = issued (step st e') evs := by
      intro e' hne
      cases e' with
      | postHash m p => exact absurd rfl (hne m p)
      | _ => rfl
    by_cases hpost : ∃ m p, e = Event.postHash m p
    · obtain ⟨m, p, rfl⟩ := hpost
      by_cases hacc : st.shuttingDown = false ∧ m = "POST" ∧ p ≠ ""
      · obtain ⟨hd, hm, hp⟩ := hacc
        have hP := ProcessHash_accept st m p hd hm hp
        have hl : (ProcessHash st m p).2.requestResponses.length =
            st.requestResponses.length + 1 := by
          rw [hP]
          simp only
          rw [Store.put_fresh _ _ _ h.fresh, List.length_append, List.length_singleton]
        have h200 : (ProcessHash st m p).1.status = 200 := by rw [hP]
        have hbody : (ProcessHash st m p).1.body =
            Itoa ((st.requestResponses.length : Int) + 1) := by rw [hP]
        have hiss : issued st (Event.postHash m p :: evs) =
            Itoa ((st.requestResponses.length : Int) + 1) ::
              issued (ProcessHash st m p).2 evs := by
          simp only [issued, h200, if_true, hbody]
        have hex : exec st (Event.postHash m p :: evs) = exec (ProcessHash st m p).2 evs := rfl
        obtain ⟨ih1, ih2⟩ := ih (ProcessHash_inv h m p)
        rw [hl] at ih1 ih2
        rw [hiss, hex]
        constructor
        · rw [List.length_cons, List.range_succ_eq_map, List.map_cons, List.map_map]
          congr 1
          conv_lhs => rw [ih1]
          apply List.map_congr_left
          intro k _
          simp only [Function.comp]
          congr 2
          push_cast
          omega
        · rw [ih2, List.length_cons]
          omega
      · have hP := ProcessHash_reject st m p hacc
        have hst : (ProcessHash st m p).1.status ≠ 200 := by
          intro h200
          exact hacc ((ProcessHash_status st m p).1 h200)
        have hiss : issued st (Event.postHash m p :: evs) = issued st evs := by
          simp only [issued, hst, if_false]
          rw [hP]
        have hex : exec st (Event.postHash m p :: evs) = exec st evs := by
          simp only [exec, List.foldl_cons, step]
          rw [hP]
        rw [hiss, hex]
        exact ih h
    · have hne : ∀ m p, e ≠ Event.postHash m p := fun m p he => hpost ⟨m, p, he⟩
      rw [other e hne]
      have hex : exec st (e :: evs) = exec (step st e) evs := rfl
      rw [hex]
      obtain ⟨ih1, ih2⟩ := ih (step_inv h e)
      rw [hlen e hne] at ih1 ih2
      exact ⟨ih1, ih2⟩

/-! ## Claims about submissions -/

/-- C3: in every run from the empty store (requests, worker steps and shutdown steps in
any order, rejected submissions included) the identifiers returned by the accepted
submissions are, in order, the decimal strings of 1, 2, 3, ...; they are pairwise
distinct; and the next accepted submission returns the decimal string of one more than
the number accepted so far, a key that is not yet in the store. -/
theorem ProcessHash_identifiers_count_up (evs : List Event) :
    (∀ k : Nat, k < (issued State.init evs).length →
        (issued State.init evs)[k]? = some (Itoa ((k : Int) + 1))) ∧
    (issued State.init evs).Nodup ∧
    ∀ method pwd : String, (ProcessHash (exec State.init evs) method pwd).1.status = 200 →
      (ProcessHash (exec State.init evs) method pwd).1.body =
          Itoa (((issued State.init evs).length : Int) + 1) ∧
        (exec State.init evs).requestResponses.get
          (ProcessHash (exec State.init evs) method pwd).1.body = none := by
  obtain ⟨h1, h2⟩ := issued_from RunInv.init evs
  have hlen0 : State.init.requestResponses.length = 0 := rfl
  rw [hlen0] at h1 h2
  have hinj : Function.Injective (fun k : Nat => Itoa (((0 + k : Nat) : Int) + 1)) := by
    intro a b hab
    have := Itoa_succ_injective _ _ hab
    omega
  refine ⟨?_, ?_, ?_⟩
  · intro k hk
    rw [h1]
    rw [h1, List.length_map, List.length_range] at hk
    rw [List.getElem?_map, List.getElem?_range hk]
    simp
  · rw [h1]
    exact (List.nodup_range _).map hinj
  · intro method pwd h200
    obtain ⟨hd, hm, hp⟩ := (ProcessHash_status _ method pwd).1 h200
    rw [ProcessHash_accept _ method pwd hd hm hp]
    simp only
    constructor
    · rw [h2]
      simp
    · exact (exec_inv RunInv.init evs).fresh

/-- C5: in every state of a run from the empty store, `ProcessHash` accepts exactly when
the server is not draining, the method is POST and the password is non-empty. Then it
answers 200 with the identifier, appends the one pending entry (duration -1, empty hash)
under that identifier, which was not in the store, and launches the one worker for it,
all else unchanged. Otherwise it answers 503 when draining, else 405 on a wrong method,
else 422, and leaves the whole state (store and workers) unchanged. -/
theorem ProcessHash_accepts_iff (evs : List Event) (method pwd : String) :
    ((ProcessHash (exec State.init evs) method pwd).1.status = 200 ↔
      ((exec State.init evs).shuttingDown = false ∧ method = "POST" ∧ pwd ≠ "")) ∧
    (((exec State.init evs).shuttingDown = false ∧ method = "POST" ∧ pwd ≠ "") →
      (exec State.init evs).requestResponses.get
          (Itoa (((exec State.init evs).requestResponses.length : Int) + 1)) = none ∧
      ProcessHash (exec State.init evs) method pwd =
        (⟨200, Itoa (((exec State.init evs).requestResponses.length : Int) + 1)⟩,
          { exec State.init evs with
            requestResponses := (exec State.init evs).requestResponses ++
              [(Itoa (((exec State.init evs).requestResponses.length : Int) + 1),
                { duration := -1, hash := "" })]
            workers := (exec State.init evs).workers ++
              [{ index := Itoa (((exec State.init evs).requestResponses.length : Int) + 1),
                 pwd := pwd, phase := .launched }] })) ∧
    (¬ ((exec State.init evs).shuttingDown = false ∧ method = "POST" ∧ pwd ≠ "") →
      (ProcessHash (exec State.init evs) method pwd).2 = exec State.init evs ∧
      (ProcessHash (exec State.init evs) method pwd).1.status =
        (if (exec State.init evs).shuttingDown then 503
         else if method ≠ "POST" then 405 else 422)) := by
  refine ⟨ProcessHash_status _ _ _, ?_, ?_⟩
  · rintro ⟨hd, hm, hp⟩
    have hfresh := (exec_inv RunInv.init evs).fresh
    refine ⟨hfresh, ?_⟩
    rw [ProcessHash_accept _ method pwd hd hm hp, Store.put_fresh _ _ _ hfresh]
  · intro h
    rw [ProcessHash_reject _ method pwd h]
    exact ⟨rfl, rfl⟩

/-! ## What a step does to the store, the workers and the flag -/

theorem step_store (st : State) (e : Event) :
    (step st e).requestResponses = st.requestResponses ∨
    (∃ (k : Nat) (w : Worker) (d : Int), st.workers[k]? = some w ∧
      w.phase.written = false ∧ (step st e).requestResponses =
        st.requestResponses.put w.index { hash := digestOf w.pwd, duration := d }) ∨
    (step st e).requestResponses = st.requestResponses.put
      (Itoa ((st.requestResponses.length : Int) + 1)) { duration := -1, hash := "" } := by
  cases e with
  | postHash m p =>
    simp only [step, ProcessHash]
    split
    · exact Or.inl rfl
    · split
      · exact Or.inl rfl
      · split
        · exact Or.inl rfl
        · exact Or.inr (Or.inr rfl)
  | index => exact Or.inl rfl
  | getHash _ _ => exact Or.inl rfl
  | stats _ => exact Or.inl rfl
  | tick _ => exact Or.inl rfl
  | shutdown m =>
    left
    simp only [step, Shutdown]
    split
    · rfl
    · split <;> rfl
  | shutdownRetry =>
    left
    simp only [step, resumeShutdown]
    split
    · rfl
    · split <;> rfl
  | gsRecv =>
    left
    simp only [step, gracefullShutdown]
    split
    · split <;> rfl
    · rfl
  | workerStart k =>
    left
    simp only [step, workerStart]
    split
    · split <;> rfl
    · rfl
  | workerRetry k =>
    left
    simp only [step, workerRetry]
    split
    · split <;> rfl
    · rfl
  | workerWake k =>
    simp only [step, workerWake]
    split
    · rename_i w hk
      split
      · rename_i start hp
        split
        · right; left
          exact ⟨k, w, _, hk, by rw [hp]; rfl, hashPassword_store _ _ _ _⟩
        · exact Or.inl rfl
      · exact Or.inl rfl
    · exact Or.inl rfl

/-- A completed entry is never changed by a step. -/
theorem step_completed_stable {st : State} (h : RunInv st) (e : Event) (id : String)
    (r : HashResult) (hr : st.requestResponses.get id = some r) (hc : r.hash ≠ "") :
    (step st e).requestResponses.get id = some r := by
  rcases step_store st e with h1 | ⟨k, w, d, hk, hun, h1⟩ | h1
  · rw [h1]; exact hr
  · rw [h1, Store.get_put]
    obtain ⟨r0, hr0, hj⟩ := h.jobs k w hk
    have hne : id ≠ w.index := by
      intro he
      rw [he, hr0] at hr
      simp only [JobEntry, hun] at hj
      have : r = r0 := (Option.some.inj hr).symm
      rw [this, hj] at hc
      exact hc rfl
    simp [hne, hr]
  · rw [h1, Store.get_put]
    have hne : id ≠ Itoa ((st.requestResponses.length : Int) + 1) := by
      intro he
      rw [he, h.fresh] at hr
      exact absurd hr (by simp)
    simp [hne, hr]

theorem exec_completed_stable {st : State} (h : RunInv st) (evs : List Event) (id : String)
    (r : HashResult) (hr : st.requestResponses.get id = some r) (hc : r.hash ≠ "") :
    (exec st evs).requestResponses.get id = some r := by
  induction evs generalizing st with
  | nil => exact hr
  | cons e evs ih => exact ih (step_inv h e) (step_completed_stable h e id r hr hc)

/-- A worker keeps its place, its identifier and its password; only its phase moves. -/
theorem step_workers (st : State) (e : Event) (i : Nat) (w : Worker)
    (hw : st.workers[i]? = some w) :
    ∃ ph, (step st e).workers[i]? = some { w with phase := ph } := by
  have keep : ∀ st' : State, st'.workers = st.workers →
      ∃ ph, st'.workers[i]? = some { w with phase := ph } := by
    intro st' h'
    exact ⟨w.phase, by rw [h', hw]⟩
  have hi : i < st.workers.length := by
    by_contra hn
    rw [List.getElem?_eq_none (by omega)] at hw
    exact absurd hw (by simp)
  have upd : ∀ (k : Nat) (v : Worker) (ph : Phase) (st' : State), st.workers[k]? = some v →
      st'.workers = st.workers.set k { v with phase := ph } →
      ∃ ph, st'.workers[i]? = some { w with phase := ph } := by
    intro k v ph st' hk h'
    by_cases hki : k = i
    · subst hki
      rw [hw] at hk
      have hv : v = w := (Option.some.inj hk).symm
      subst hv
      exact ⟨ph, by rw [h', List.getElem?_set_self hi]⟩
    · exact ⟨w.phase, by rw [h', List.getElem?_set_ne hki, hw]⟩
  cases e with
  | postHash m p =>
    simp only [step, ProcessHash]
    split
    · exact keep _ rfl
    · split
      · exact keep _ rfl
      · split
        · exact keep _ rfl
        · exact ⟨w.phase, by simp only; rw [List.getElem?_append_left hi, hw]⟩
  | index => exact keep _ rfl
  | getHash _ _ => exact keep _ rfl
  | stats _ => exact keep _ rfl
  | tick _ => exact keep _ rfl
  | shutdown m =>
    simp only [step, Shutdown]
    split
    · exact keep _ rfl
    · split <;> exact keep _ rfl
  | shutdownRetry =>
    simp only [step, resumeShutdown]
    split
    · exact keep _ rfl
    · split <;> exact keep _ rfl
  | gsRecv =>
    simp only [step, gracefullShutdown]
    split
    · split <;> exact keep _ rfl
    · exact keep _ rfl
  | workerStart k =>
    simp only [step, workerStart]
    split
    · rename_i v hk
      split
      · exact upd k v _ _ hk rfl
      all_goals exact keep _ rfl
    · exact keep _ rfl
  | workerRetry k =>
    simp only [step, workerRetry]
    split
    · rename_i v hk
      split
      · exact upd k v _ _ hk rfl
      all_goals exact keep _ rfl
    · exact keep _ rfl
  | workerWake k =>
    simp only [step, workerWake]
    split
    · rename_i v hk
      split
      · split
        · exact upd k v _ _ hk rfl
        · exact keep _ rfl
      all_goals exact keep _ rfl
    · exact keep _ rfl

theorem exec_workers (st : State) (evs : List Event) (i : Nat) (w : Worker)
    (hw : st.workers[i]? = some w) :
    ∃ ph, (exec st evs).workers[i]? = some { w with phase := ph } := by
  induction evs generalizing st w with
  | nil => exact ⟨w.phase, hw⟩
  | cons e evs ih =>
    obtain ⟨ph, h1⟩ := step_workers st e i w hw
    obtain ⟨ph', h2⟩ := ih (step st e) _ h1
    exact ⟨ph', h2⟩

/-- Without a shutdown request the flag stays down and no handler is parked. -/
theorem step_not_draining (st : State) (e : Event) (hd : st.shuttingDown = false)
    (hp : st.parked = 0) (he : ∀ m, e ≠ Event.shutdown m) :
    (step st e).shuttingDown = false ∧ (step st e).parked = 0 := by
  cases e with
  | shutdown m => exact absurd rfl (he m)
  | postHash m p =>
    simp only [step, ProcessHash]
    split
    · exact ⟨hd, hp⟩
    · split
      · exact ⟨hd, hp⟩
      · split <;> exact ⟨hd, hp⟩
  | index => exact ⟨hd, hp⟩
  | getHash _ _ => exact ⟨hd, hp⟩
  | stats _ => exact ⟨hd, hp⟩
  | tick _ => exact ⟨hd, hp⟩
  | shutdownRetry =>
    simp only [step, resumeShutdown, hp, if_true]
    exact ⟨hd, trivial⟩
  | gsRecv =>
    simp only [step, gracefullShutdown]
    split
    · split <;> exact ⟨hd, hp⟩
    · exact ⟨hd, hp⟩
  | workerStart k =>
    simp only [step, workerStart]
    split
    · split <;> exact ⟨hd, hp⟩
    · exact ⟨hd, hp⟩
  | workerRetry k =>
    simp only [step, workerRetry]
    split
    · split <;> exact ⟨hd, hp⟩
    · exact ⟨hd, hp⟩
  | workerWake k =>
    simp only [step, workerWake]
    split
    · split
      · split
        · simp only [hashPassword, hd]
          exact ⟨rfl, hp⟩
        · exact ⟨hd, hp⟩
      all_goals exact ⟨hd, hp⟩
    · exact ⟨hd, hp⟩

theorem exec_not_draining (st : State) (evs : List Event) (hd : st.shuttingDown = false)
    (hp : st.parked = 0) (he : ∀ m, Event.shutdown m ∉ evs) :
    (exec st evs).shuttingDown = false ∧ (exec st evs).parked = 0 := by
  induction evs generalizing st with
  | nil => exact ⟨hd, hp⟩
  | cons e evs ih =>
    have h1 := step_not_draining st e hd hp
      (fun m hm => he m (by rw [hm]; exact List.mem_cons_self _ _))
    exact ih (step st e) h1.1 h1.2 (fun m hm => he m (List.mem_cons_of_mem _ hm))

/-! ## Claims about retrieval and about the entries -/

theorem GetHash_of_worker {st : State} (h : RunInv st) (hd : st.shuttingDown = false)
    (i : Nat) (w : Worker) (hw : st.workers[i]? = some w) :
    GetHash st "GET" w.index = ⟨200, if w.phase.written then digestOf w.pwd else ""⟩ := by
  obtain ⟨r, hr, hj⟩ := h.jobs i w hw
  simp only [GetHash, hd, hr]
  by_cases hwr : w.phase.written = true
  · simp only [JobEntry, hwr, if_true] at hj
    simp [hwr, hj.1]
  · have hf : w.phase.written = false := by simpa using hwr
    simp [JobEntry, hf] at hj
    simp [hf, hj]

/-- C2: take a run from the empty store with no shutdown request, then an accepted
submission of the secret `pwd`, then any further run with no shutdown request. The
submission answered 200 with an identifier; the goroutine launched for it keeps that
identifier and that secret; and GET on the identifier answers 200 with the empty body as
long as that goroutine has not written its result, and 200 with the digest of exactly
`pwd` (which is never the empty string) once it has. GET on an identifier that is not in
the store answers 404. -/
theorem GetHash_pending_then_digest (evs1 evs2 : List Event) (pwd : String)
    (h1 : ∀ m, Event.shutdown m ∉ evs1) (h2 : ∀ m, Event.shutdown m ∉ evs2)
    (hp : pwd ≠ "") :
    (ProcessHash (exec State.init evs1) "POST" pwd).1.status = 200 ∧
    (∃ ph : Phase,
      (exec (ProcessHash (exec State.init evs1) "POST" pwd).2 evs2).workers[
          (exec State.init evs1).workers.length]? =
        some { index := (ProcessHash (exec State.init evs1) "POST" pwd).1.body,
               pwd := pwd, phase := ph } ∧
      GetHash (exec (ProcessHash (exec State.init evs1) "POST" pwd).2 evs2) "GET"
          (ProcessHash (exec State.init evs1) "POST" pwd).1.body =
        ⟨200, if ph.written then digestOf pwd else ""⟩) ∧
    digestOf pwd ≠ "" ∧
    ∀ id : String,
      (exec (ProcessHash (exec State.init evs1) "POST" pwd).2 evs2).requestResponses.get id
          = none →
        GetHash (exec (ProcessHash (exec State.init evs1) "POST" pwd).2 evs2) "GET" id =
          ⟨404, ""⟩ := by
  have hinv1 := exec_inv RunInv.init evs1
  obtain ⟨hd1, hp1⟩ := exec_not_draining State.init evs1 rfl rfl h1
  have hacc := ProcessHash_accept (exec State.init evs1) "POST" pwd hd1 rfl hp
  have hinvP := ProcessHash_inv hinv1 "POST" pwd
  have hdP : (ProcessHash (exec State.init evs1) "POST" pwd).2.shuttingDown = false := by
    rw [hacc]; exact hd1
  have hpP : (ProcessHash (exec State.init evs1) "POST" pwd).2.parked = 0 := by
    rw [hacc]; exact hp1
  have hwP : (ProcessHash (exec State.init evs1) "POST" pwd).2.workers[
      (exec State.init evs1).workers.length]? =
      some { index := (ProcessHash (exec State.init evs1) "POST" pwd).1.body,
             pwd := pwd, phase := .launched } := by
    rw [hacc]
    simp
  obtain ⟨hd2, _⟩ := exec_not_draining _ evs2 hdP hpP h2
  have hinv2 := exec_inv hinvP evs2
  obtain ⟨ph, hph⟩ := exec_workers _ evs2 _ _ hwP
  refine ⟨by rw [hacc], ⟨ph, hph, ?_⟩, digestOf_ne_empty pwd, ?_⟩
  · exact GetHash_of_worker hinv2 hd2 _ _ hph
  · intro id hid
    simp [GetHash, hd2, hid]

/-- Witness of C2: "angryMonkey" is submitted to the fresh server, its worker starts,
five seconds pass, the worker completes. -/
theorem GetHash_pending_then_digest_witness :
    (ProcessHash (exec State.init []) "POST" "angryMonkey").1.status = 200 ∧
    (∃ ph : Phase,
      (exec (ProcessHash (exec State.init []) "POST" "angryMonkey").2
          [.workerStart 0, .tick 5000000000, .workerWake 0]).workers[
          (exec State.init []).workers.length]? =
        some { index := (ProcessHash (exec State.init []) "POST" "angryMonkey").1.body,
               pwd := "angryMonkey", phase := ph } ∧
      GetHash (exec (ProcessHash (exec State.init []) "POST" "angryMonkey").2
          [.workerStart 0, .tick 5000000000, .workerWake 0]) "GET"
          (ProcessHash (exec State.init []) "POST" "angryMonkey").1.body =
        ⟨200, if ph.written then digestOf "angryMonkey" else ""⟩) ∧
    digestOf "angryMonkey" ≠ "" ∧
    ∀ id : String,
      (exec (ProcessHash (exec State.init []) "POST" "angryMonkey").2
          [.workerStart 0, .tick 5000000000, .workerWake 0]).requestResponses.get id
          = none →
        GetHash (exec (ProcessHash (exec State.init []) "POST" "angryMonkey").2
          [.workerStart 0, .tick 5000000000, .workerWake 0]) "GET" id = ⟨404, ""⟩ :=
  GetHash_pending_then_digest [] [.workerStart 0, .tick 5000000000, .workerWake 0]
    "angryMonkey" (by simp) (by simp) (by decide)

/-- C10: in every run from the empty store (the clock only moves forward), every entry
of the store is either pending (empty hash and duration -1) or completed (non-empty hash
and duration at least 0), and an entry that is completed is still there, with the same
hash and the same duration, after any further steps. -/
theorem entries_pending_or_completed (evs evs' : List Event) (id : String)
    (r : HashResult) :
    ((exec State.init evs).requestResponses.get id = some r →
      (r.hash = "" ∧ r.duration = -1) ∨ (r.hash ≠ "" ∧ 0 ≤ r.duration)) ∧
    ((exec State.init evs).requestResponses.get id = some r → r.hash ≠ "" →
      (exec State.init (evs ++ evs')).requestResponses.get id = some r) := by
  have hinv := exec_inv RunInv.init evs
  constructor
  · intro hr
    rcases hinv.entries id r hr with h | h
    · left; rw [h]; exact ⟨rfl, rfl⟩
    · exact Or.inr h
  · intro hr hc
    rw [exec_append]
    exact exec_completed_stable hinv evs' id r hr hc

/-! ## Statistics -/

theorem wrap64_add_left (x y : Int) : wrap64 (wrap64 x + y) = wrap64 (x + y) := by
  unfold wrap64
  omega

theorem wrap64_of_fits (x : Int) (lo : -2 ^ 63 ≤ x) (hi : x < 2 ^ 63) : wrap64 x = x := by
  unfold wrap64
  omega

theorem statsLoop_fold (m : Store) (a b : Int) :
    m.foldl (fun acc e =>
      if e.2.hash ≠ "" then (wrap64 (acc.1 + e.2.duration), wrap64 (acc.2 + 1)) else acc)
      (wrap64 a, wrap64 b) =
    (wrap64 (a + (completedDurations m).sum),
      wrap64 (b + ((completedDurations m).length : Int))) := by
  induction m generalizing a b with
  | nil => simp [completedDurations]
  | cons e rest ih =>
    by_cases hc : e.2.hash = ""
    · simp only [List.foldl_cons, hc, ne_eq, not_true_eq_false, if_false]
      rw [ih]
      simp [completedDurations, hc]
    · simp only [List.foldl_cons, ne_eq, hc, not_false_eq_true, if_true]
      rw [wrap64_add_left, wrap64_add_left, ih]
      simp [completedDurations, hc, add_assoc, add_comm]

theorem statsLoop_eq (m : Store) :
    statsLoop m = (wrap64 (completedDurations m).sum,
      wrap64 ((completedDurations m).length : Int)) := by
  have h := statsLoop_fold m 0 0
  have h0 : wrap64 0 = 0 := by decide
  rw [h0] at h
  simpa [statsLoop] using h

theorem completedDurations_length_le (m : Store) :
    (completedDurations m).length ≤ m.length := by
  simp only [completedDurations, List.length_map]
  exact List.length_filter_le _ _

theorem completedDurations_filter (m : Store) :
    completedDurations (m.filter (fun e => e.2.hash ≠ "")) = completedDurations m := by
  simp [completedDurations, List.filter_filter]

theorem statsBody_zero : "\x7b \"total\" : 0, \"average\" : 0 \x7d" = statsBody 0 0 := by
  decide

/-- C4: for every store content within the range of the `int64` counters of `GetStats`
(the number of entries and the sum of the durations of the completed jobs fit in an
`int64`, as they do in every store the server can build from its millisecond durations),
when the server is not draining and the method is GET, `GetStats` reports total = the
number of completed jobs (entries with a non-empty hash) and average = the sum of the
durations of exactly those jobs divided by total with Go's integer division; it reports
total 0 and average 0 when no job is completed (no division by zero); for non-negative
durations the average is `floor(sum / total)`; and pending entries contribute to neither
total nor sum: the answer is the same as on the store without them. -/
theorem GetStats_total_average (st : State) (hd : st.shuttingDown = false)
    (hcount : (st.requestResponses.length : Int) < 2 ^ 63)
    (hfit : -2 ^ 63 ≤ (completedDurations st.requestResponses).sum ∧
      (completedDurations st.requestResponses).sum < 2 ^ 63) :
    GetStats st "GET" =
      ⟨200, statsBody ((completedDurations st.requestResponses).length : Int)
        (if (completedDurations st.requestResponses).length = 0 then 0
         else Int.tdiv (completedDurations st.requestResponses).sum
           ((completedDurations st.requestResponses).length : Int))⟩ ∧
    ((completedDurations st.requestResponses).length = 0 →
      GetStats st "GET" = ⟨200, "\x7b \"total\" : 0, \"average\" : 0 \x7d"⟩) ∧
    ((∀ d ∈ completedDurations st.requestResponses, 0 ≤ d) →
      Int.tdiv (completedDurations st.requestResponses).sum
          ((completedDurations st.requestResponses).length : Int) =
        (completedDurations st.requestResponses).sum /
          ((completedDurations st.requestResponses).length : Int)) ∧
    GetStats { st with
        requestResponses := st.requestResponses.filter (fun e => e.2.hash ≠ "") } "GET" =
      GetStats st "GET" := by
  have hle := completedDurations_length_le st.requestResponses
  have hN : wrap64 ((completedDurations st.requestResponses).length : Int) =
      ((completedDurations st.requestResponses).length : Int) :=
    wrap64_of_fits _ (by omega) (by omega)
  have hS : wrap64 (completedDurations st.requestResponses).sum =
      (completedDurations st.requestResponses).sum := wrap64_of_fits _ hfit.1 hfit.2
  have hloop : statsLoop st.requestResponses =
      ((completedDurations st.requestResponses).sum,
        ((completedDurations st.requestResponses).length : Int)) := by
    rw [statsLoop_eq, hN, hS]
  have hzero : (completedDurations st.requestResponses).length = 0 →
      GetStats st "GET" = ⟨200, "\x7b \"total\" : 0, \"average\" : 0 \x7d"⟩ := by
    intro h0
    simp [GetStats, hd, hloop, h0]
  refine ⟨?_, hzero, ?_, ?_⟩
  · by_cases h0 : (completedDurations st.requestResponses).length = 0
    · rw [hzero h0, statsBody_zero]
      simp [h0]
    · have h0' : ¬ ((completedDurations st.requestResponses).length : Int) = 0 := by
        omega
      simp [GetStats, hd, hloop, h0, h0']
  · intro hpos
    exact Int.tdiv_eq_ediv (List.sum_nonneg hpos) (by omega)
  · simp only [GetStats, statsLoop_eq, completedDurations_filter]

/-- Witness of C4: the store after "angryMonkey" was submitted and hashed in 5000 ms. -/
theorem GetStats_total_average_witness :
    GetStats (exec State.init [.postHash "POST" "angryMonkey", .workerStart 0,
        .tick 5000000123, .workerWake 0, .postHash "POST" "b"]) "GET" =
      ⟨200, "\x7b \"total\" : 1, \"average\" : 5000 \x7d"⟩ := by
  have h := (GetStats_total_average (exec State.init [.postHash "POST" "angryMonkey",
    .workerStart 0, .tick 5000000123, .workerWake 0, .postHash "POST" "b"])
    (by decide) (by decide) (by decide)).1
  rw [h]
  decide

/-! ## The digest of "angryMonkey" -/

/-- C1: for the secret "angryMonkey", submitted to the fresh server and hashed after the
five seconds, `hashPassword` stores the URL-alphabet encoding, with `-` and `_` where the
documented digest (the standard-alphabet encoding of the same SHA-512 hash) has `+` and
`/`; the two differ. -/
theorem hashPassword_angryMonkey_digest :
    (exec State.init [.postHash "POST" "angryMonkey", .workerStart 0, .tick 5000000000,
        .workerWake 0]).requestResponses.get "1" =
      some { duration := 5000,
             hash := "ZEHhWB65gUlzdVwtDQArEyx-KVLzp_aTaRaPlBzYRIFj6vjFdqEb0Q5B8zVKCZ0vKbZPZklJz0Fd7su2A-gf7Q==" } ∧
    stdDigestOf "angryMonkey" =
      "ZEHhWB65gUlzdVwtDQArEyx+KVLzp/aTaRaPlBzYRIFj6vjFdqEb0Q5B8zVKCZ0vKbZPZklJz0Fd7su2A+gf7Q==" ∧
    digestOf "angryMonkey" ≠ stdDigestOf "angryMonkey" := by
  decide

/-! ## Statistics while a job is pending -/

/-- C7: after one accepted POST to /hash (identifier "1" returned) and before its hash is
computed, `GetStats` reports total 0, not 1. -/
theorem GetStats_total_omits_pending :
    issued State.init [.postHash "POST" "angryMonkey"] = ["1"] ∧
    (exec State.init [.postHash "POST" "angryMonkey"]).shuttingDown = false ∧
    GetStats (exec State.init [.postHash "POST" "angryMonkey"]) "GET" =
      ⟨200, "\x7b \"total\" : 0, \"average\" : 0 \x7d"⟩ := by
  decide

/-! ## The shutdown protocol -/

/-- C6: one job is submitted, then two GET /shutdown requests arrive before the job
completes. `gracefullShutdown` takes the first send at its first receive and the second
send at its second receive: it is past the second receive while the job is still
pending. -/
theorem gracefullShutdown_passes_with_pending :
    (exec State.init [.postHash "POST" "angryMonkey", .workerStart 0, .shutdown "GET",
        .gsRecv, .shutdown "GET", .gsRecv]).gsPc = 2 ∧
    pendingRequestsExist (exec State.init [.postHash "POST" "angryMonkey", .workerStart 0,
        .shutdown "GET", .gsRecv, .shutdown "GET", .gsRecv]).requestResponses = true ∧
    (exec State.init [.postHash "POST" "angryMonkey", .workerStart 0, .shutdown "GET",
        .gsRecv, .shutdown "GET", .gsRecv]).requestResponses.get "1" =
      some { duration := -1, hash := "" } := by
  decide

/-- The states after one shutdown request on the idle server: nothing in the store, no
worker, the flag up, the channel open, and one signal in all, either still queued or
already received. -/
theorem idle_shutdown_step (st : State) (e : Event)
    (h : st.workers = [] ∧ st.shuttingDown = true ∧ st.parked = 0 ∧
      st.ShutdownChan.closed = false ∧ st.ShutdownChan.buf + st.gsPc ≤ 1)
    (he : ∀ m, e ≠ Event.shutdown m) :
    (step st e).workers = [] ∧ (step st e).shuttingDown = true ∧ (step st e).parked = 0 ∧
      (step st e).ShutdownChan.closed = false ∧
      (step st e).ShutdownChan.buf + (step st e).gsPc ≤ 1 := by
  obtain ⟨hw, hd, hp, hc, hb⟩ := h
  cases e with
  | shutdown m => exact absurd rfl (he m)
  | postHash m p => simp [step, ProcessHash, hd, hw, hp, hc, hb]
  | index => exact ⟨hw, hd, hp, hc, hb⟩
  | getHash _ _ => exact ⟨hw, hd, hp, hc, hb⟩
  | stats _ => exact ⟨hw, hd, hp, hc, hb⟩
  | tick _ => exact ⟨hw, hd, hp, hc, hb⟩
  | shutdownRetry =>
    simp only [step, resumeShutdown, hp, if_true]
    exact ⟨hw, hd, trivial, hc, hb⟩
  | workerStart k => simp only [step, workerStart, hw]; simp [hd, hp, hc, hb, hw]
  | workerWake k => simp only [step, workerWake, hw]; simp [hd, hp, hc, hb, hw]
  | workerRetry k => simp only [step, workerRetry, hw]; simp [hd, hp, hc, hb, hw]
  | gsRecv =>
    by_cases hpc : st.gsPc < 2
    · by_cases hbuf : 0 < st.ShutdownChan.buf
      · simp only [step, gracefullShutdown, hpc, if_true, Chan.recv, hbuf]
        refine ⟨hw, hd, hp, hc, ?_⟩
        show st.ShutdownChan.buf - 1 + (st.gsPc + 1) ≤ 1
        omega
      · simp [step, gracefullShutdown, hpc, Chan.recv, hbuf, hc, hw, hd, hp, hb]
    · simp only [step, gracefullShutdown, hpc, if_false]
      exact ⟨hw, hd, hp, hc, hb⟩

/-- C8: on the fresh server (empty store, nothing pending) one GET /shutdown answers,
sets `shuttingDown` and sends a single value. Whatever happens next short of another
shutdown request, `gracefullShutdown` completes at most its first receive: the second
never completes. -/
theorem Shutdown_idle_never_drained (evs : List Event)
    (h : ∀ m, Event.shutdown m ∉ evs) :
    pendingRequestsExist State.init.requestResponses = false ∧
    (Shutdown State.init "GET").1 = .response ⟨200, ""⟩ ∧
    (Shutdown State.init "GET").2.shuttingDown = true ∧
    (Shutdown State.init "GET").2.ShutdownChan.buf = 1 ∧
    (exec (Shutdown State.init "GET").2 evs).gsPc ≤ 1 := by
  refine ⟨by decide, by decide, by decide, by decide, ?_⟩
  have key : ∀ (evs : List Event) (st : State), (∀ m, Event.shutdown m ∉ evs) →
      (st.workers = [] ∧ st.shuttingDown = true ∧ st.parked = 0 ∧
        st.ShutdownChan.closed = false ∧ st.ShutdownChan.buf + st.gsPc ≤ 1) →
      (exec st evs).gsPc ≤ 1 := by
    intro evs
    induction evs with
    | nil => intro st _ hst; simp only [exec, List.foldl_nil]; omega
    | cons e evs ih =>
      intro st hev hst
      exact ih (step st e) (fun m hm => hev m (List.mem_cons_of_mem _ hm))
        (idle_shutdown_step st e hst
          (fun m hm => hev m (by rw [hm]; exact List.mem_cons_self _ _)))
  exact key evs _ h (by decide)

/-- Witness of C8: after the shutdown request `gracefullShutdown` tries to receive
twice, a second passes, and it tries once more. -/
theorem Shutdown_idle_never_drained_witness :
    (exec (Shutdown State.init "GET").2 [.gsRecv, .gsRecv, .tick 1000000000, .gsRecv]).gsPc
      ≤ 1 :=
  (Shutdown_idle_never_drained [.gsRecv, .gsRecv, .tick 1000000000, .gsRecv]
    (by simp)).2.2.2.2

/-- C9: a job is submitted and a shutdown is requested; the job completes, sends the
Drained signal and closes `ShutdownChan`; a further GET /shutdown then sends on the closed
channel and panics. And on the idle server the fourth GET /shutdown blocks for ever: the
third filled the one-slot buffer and `gracefullShutdown` is past both its receives. -/
theorem Shutdown_again_panics_or_blocks :
    (exec State.init [.postHash "POST" "angryMonkey", .workerStart 0, .shutdown "GET",
        .gsRecv, .tick 5000000000, .workerWake 0]).ShutdownChan.closed = true ∧
    (Shutdown (exec State.init [.postHash "POST" "angryMonkey", .workerStart 0,
        .shutdown "GET", .gsRecv, .tick 5000000000, .workerWake 0]) "GET").1 = .panic ∧
    (exec State.init [.shutdown "GET", .gsRecv, .shutdown "GET", .gsRecv,
        .shutdown "GET"]).gsPc = 2 ∧
    (Shutdown (exec State.init [.shutdown "GET", .gsRecv, .shutdown "GET", .gsRecv,
        .shutdown "GET"]) "GET").1 = .blocked := by
  decide

/-! ## The durations the server can store -/

theorem sinceMs_le (start now : Nat) : sinceMs start now ≤ 9223372036854 := by
  unfold sinceMs
  have h : min (now - start) (2 ^ 63 - 1) / 1000000 ≤ 9223372036854 := by
    have h1 : min (now - start) (2 ^ 63 - 1) ≤ 2 ^ 63 - 1 := Nat.min_le_right _ _
    omega
  exact_mod_cast h

theorem Store.mem_put (m : Store) (k : String) (v : HashResult) (e : String × HashResult)
    (h : e ∈ m.put k v) : e = (k, v) ∨ e ∈ m := by
  induction m with
  | nil =>
    simp only [Store.put, List.mem_singleton] at h
    exact Or.inl h
  | cons e0 rest ih =>
    obtain ⟨k0, old⟩ := e0
    by_cases h0 : k0 = k
    · simp only [Store.put, h0, if_true, List.mem_cons] at h
      rcases h with h | h
      · exact Or.inl h
      · exact Or.inr (List.mem_cons_of_mem _ h)
    · simp only [Store.put, h0, if_false, List.mem_cons] at h
      rcases h with h | h
      · exact Or.inr (by rw [h]; exact List.mem_cons_self _ _)
      · rcases ih h with h1 | h1
        · exact Or.inl h1
        · exact Or.inr (List.mem_cons_of_mem _ h1)

/-- Every duration in a store built by a run is `-1` or a reading of `time.Since` in
milliseconds, hence at most 9223372036854. -/
theorem step_durations (st : State) (e : Event)
    (h : ∀ x ∈ st.requestResponses, -1 ≤ x.2.duration ∧ x.2.duration ≤ 9223372036854) :
    ∀ x ∈ (step st e).requestResponses,
      -1 ≤ x.2.duration ∧ x.2.duration ≤ 9223372036854 := by
  have keep : ∀ st' : State, st'.requestResponses = st.requestResponses →
      ∀ x ∈ st'.requestResponses, -1 ≤ x.2.duration ∧ x.2.duration ≤ 9223372036854 := by
    intro st' h' x hx
    rw [h'] at hx
    exact h x hx
  cases e with
  | postHash m p =>
    simp only [step, ProcessHash]
    split
    · exact keep _ rfl
    · split
      · exact keep _ rfl
      · split
        · exact keep _ rfl
        · intro x hx
          rcases Store.mem_put _ _ _ _ hx with h1 | h1
          · rw [h1]
            exact ⟨le_refl _, by simp only; omega⟩
          · exact h x h1
  | index => exact keep _ rfl
  | getHash _ _ => exact keep _ rfl
  | stats _ => exact keep _ rfl
  | tick _ => exact keep _ rfl
  | shutdown m =>
    simp only [step, Shutdown]
    split
    · exact keep _ rfl
    · split <;> exact keep _ rfl
  | shutdownRetry =>
    simp only [step, resumeShutdown]
    split
    · exact keep _ rfl
    · split <;> exact keep _ rfl
  | gsRecv =>
    simp only [step, gracefullShutdown]
    split
    · split <;> exact keep _ rfl
    · exact keep _ rfl
  | workerStart k =>
    simp only [step, workerStart]
    split
    · split <;> exact keep _ rfl
    · exact keep _ rfl
  | workerRetry k =>
    simp only [step, workerRetry]
    split
    · split <;> exact keep _ rfl
    · exact keep _ rfl
  | workerWake k =>
    simp only [step, workerWake]
    split
    · rename_i w hk
      split
      · rename_i start hp
        split
        · intro x hx
          have hs := hashPassword_store st w.index w.pwd start
          simp only at hx
          rw [hs] at hx
          rcases Store.mem_put _ _ _ _ hx with h1 | h1
          · rw [h1]
            exact ⟨by have := sinceMs_nonneg start st.clock; simp only; omega,
              sinceMs_le start st.clock⟩
          · exact h x h1
        · exact keep _ rfl
      · exact keep _ rfl
    · exact keep _ rfl

theorem exec_durations (evs : List Event) :
    ∀ x ∈ (exec State.init evs).requestResponses,
      -1 ≤ x.2.duration ∧ x.2.duration ≤ 9223372036854 := by
  have key : ∀ (evs : List Event) (st : State),
      (∀ x ∈ st.requestResponses, -1 ≤ x.2.duration ∧ x.2.duration ≤ 9223372036854) →
      ∀ x ∈ (exec st evs).requestResponses,
        -1 ≤ x.2.duration ∧ x.2.duration ≤ 9223372036854 := by
    intro evs
    induction evs with
    | nil => intro st h; exact h
    | cons e evs ih => intro st h; exact ih (step st e) (step_durations st e h)
  exact key evs State.init (by intro x hx; simp [State.init] at hx)

theorem completedDurations_sum_bounds (m : Store)
    (h : ∀ x ∈ m, -1 ≤ x.2.duration ∧ x.2.duration ≤ 9223372036854) :
    -(m.length : Int) ≤ (completedDurations m).sum ∧
      (completedDurations m).sum ≤ 9223372036854 * (m.length : Int) := by
  induction m with
  | nil => simp [completedDurations]
  | cons e rest ih =>
    have hr := ih (fun x hx => h x (List.mem_cons_of_mem _ hx))
    have he := h e (List.mem_cons_self _ _)
    by_cases hc : e.2.hash = ""
    · have : completedDurations (e :: rest) = completedDurations rest := by
        simp [completedDurations, hc]
      rw [this, List.length_cons]
      push_cast
      omega
    · have : completedDurations (e :: rest) = e.2.duration :: completedDurations rest := by
        simp [completedDurations, hc]
      rw [this, List.sum_cons, List.length_cons]
      push_cast
      omega

/-- After every run from the empty store that has accepted at most a million submissions,
the number of entries and the sum of the completed durations are `int64` values. -/
theorem exec_stats_in_range (evs : List Event)
    (hn : (exec State.init evs).requestResponses.length ≤ 1000000) :
    ((exec State.init evs).requestResponses.length : Int) < 2 ^ 63 ∧
    -2 ^ 63 ≤ (completedDurations (exec State.init evs).requestResponses).sum ∧
    (completedDurations (exec State.init evs).requestResponses).sum < 2 ^ 63 := by
  obtain ⟨h1, h2⟩ := completedDurations_sum_bounds _ (exec_durations evs)
  have hn' : ((exec State.init evs).requestResponses.length : Int) ≤ 1000000 := by
    exact_mod_cast hn
  refine ⟨by omega, by omega, by omega⟩
